import Mathlib

/-!
Verification of the terminal-kernel session layer.

Strings are modelled as `List Char` (`Str`).  Each definition in the first
part of the file is a shallow embedding of the corresponding TypeScript
function of the extension source; the theorems in the second part settle the
frozen claims about them.  External effects (the VS Code API, child
processes) are modelled by passing their results as explicit arguments.
-/

namespace TermKernel

abbrev Str := List Char

/-- Converts a Lean string literal to the `List Char` model. -/
def chars (s : String) : Str := s.toList

/-- The characters admitted by the session-name sanitizer, source regex
`[^a-zA-Z0-9-]`. -/
def isNameChar (c : Char) : Bool :=
  (decide ('a' ≤ c) && decide (c ≤ 'z')) ||
  (decide ('A' ≤ c) && decide (c ≤ 'Z')) ||
  (decide ('0' ≤ c) && decide (c ≤ '9')) || decide (c = '-')

/-- Per-character action of `sanitizeSessionName`. -/
def sanitizeChar (c : Char) : Char := if isNameChar c then c else '-'

/-- Source: `value.replace(/[^a-zA-Z0-9-]/g, '-')`. -/
def sanitizeSessionName (value : Str) : Str := value.map sanitizeChar

/-- Source idiom `sanitizeSessionName(x) || 'terminal'`: the empty string is
falsy, so an empty sanitized name falls back to `terminal`. -/
def orTerminal (s : Str) : Str := if s = [] then chars "terminal" else s

/-- Decimal digit to its character, total with a junk default that is never
reached for arguments below 10. -/
def digitChar (d : Nat) : Char :=
  match d with
  | 0 => '0' | 1 => '1' | 2 => '2' | 3 => '3' | 4 => '4'
  | 5 => '5' | 6 => '6' | 7 => '7' | 8 => '8' | 9 => '9'
  | _ => '*'

/-- Fueled digit expansion; with fuel above the digit count it renders `n`
in decimal, mirroring the JavaScript `String(n)` for natural numbers. -/
def natToStrGo : Nat → Nat → Str
  | 0, _ => []
  | fuel + 1, n =>
    if n < 10 then [digitChar n]
    else natToStrGo fuel (n / 10) ++ [digitChar (n % 10)]

/-- Decimal rendering of a natural number, the model of `String(n)` at the
numeric call sites of `buildNumberedSessionName`. -/
def natToStr (n : Nat) : Str := natToStrGo (n + 1) n

/-- ASCII decimal digit test, the model of the regex class `\d`. -/
def isDigitChar (c : Char) : Bool := decide ('0' ≤ c) && decide (c ≤ '9')

/-- Numeric value of a digit character. -/
def digitVal (c : Char) : Nat := c.toNat - 48

/-- Value of a big-endian digit string. -/
def digitsToNat (s : Str) : Nat := s.foldl (fun a c => 10 * a + digitVal c) 0

/-- Hexadecimal digit test for the `0x` literals `Number` accepts. -/
def isHexDigit (c : Char) : Bool :=
  isDigitChar c || (decide ('a' ≤ c) && decide (c ≤ 'f')) ||
    (decide ('A' ≤ c) && decide (c ≤ 'F'))

/-- Value of a hexadecimal digit character. -/
def hexVal (c : Char) : Nat :=
  if isDigitChar c then digitVal c
  else if decide ('a' ≤ c) then c.toNat - 87 else c.toNat - 55

/-- Value of a big-endian hexadecimal digit string. -/
def hexToNat (s : Str) : Nat := s.foldl (fun a c => 16 * a + hexVal c) 0

/-- Octal digit test for `0o` literals. -/
def isOctDigit (c : Char) : Bool := decide ('0' ≤ c) && decide (c ≤ '7')

/-- Value of a big-endian octal digit string. -/
def octToNat (s : Str) : Nat := s.foldl (fun a c => 8 * a + digitVal c) 0

/-- Binary digit test for `0b` literals. -/
def isBinDigit (c : Char) : Bool := decide (c = '0') || decide (c = '1')

/-- Value of a big-endian binary digit string. -/
def binToNat (s : Str) : Nat := s.foldl (fun a c => 2 * a + digitVal c) 0

/-- ASCII whitespace, the model of the regex class `\s`, of the characters
removed by `String.trim`, and of the `StrWhiteSpace` stripped by `Number`
(non-ASCII Unicode spaces are outside the model). -/
def isWsChar (c : Char) : Bool :=
  decide (c = ' ') || decide (c = '\t') || decide (c = '\n') ||
  decide (c = '\r') || decide (c = '\x0b') || decide (c = '\x0c')

/-- JavaScript `String.trim`. -/
def trimStr (s : Str) : Str :=
  ((s.dropWhile isWsChar).reverse.dropWhile isWsChar).reverse

/-! #### JavaScript `Number` on strings

`getNextSessionName` marks a suffix used when
`Number.isInteger(Number(rest)) && Number(rest) > 0`.  `Number` on a string
trims whitespace, parses the string numeric grammar (signed decimal with
optional fraction and exponent, `Infinity`, or unsigned hex, octal and
binary literals) to an exact value, and rounds that value to the nearest
IEEE 754 double, ties to even.  The model below computes the exact value as
a pair `m * 10 ^ p` and the rounding over plain integer arithmetic, so every
form `Number` accepts — `01`, `1e0`, `0x10`, `1.0`, a leading sign or
whitespace — is covered, including values whose rounding makes them
integral. -/

/-- Fueled binary digit count; with fuel above the bit count, `bitLenGo`
computes the number of binary digits of `n` (0 for 0). -/
def bitLenGo : Nat → Nat → Nat
  | 0, _ => 0
  | fuel + 1, n => if n = 0 then 0 else bitLenGo fuel (n / 2) + 1

/-- Number of binary digits of `n`. -/
def bitLen (n : Nat) : Nat := bitLenGo (n + 1) n

/-- Nearest integer to the fraction `a / b` (for `b ≠ 0`), ties rounded to
the even integer: the IEEE 754 default rounding. -/
def rndHalfEven (a b : Nat) : Nat :=
  let q := a / b
  let r := a % b
  if 2 * r < b then q
  else if b < 2 * r then q + 1
  else if q % 2 = 0 then q else q + 1

/-- The binade of the positive fraction `a / b`: the `e` with
`2 ^ e ≤ a / b < 2 ^ (e + 1)`, computed from the bit counts and one exact
cross-multiplied comparison. -/
def fracBinade (a b : Nat) : Int :=
  let e0 : Int := (bitLen a : Int) - (bitLen b : Int)
  if b * 2 ^ e0.toNat ≤ a * 2 ^ (-e0).toNat then e0 else e0 - 1

/-- Nearest IEEE 754 double to the nonnegative fraction `a / b` (for
`b ≠ 0`), as a dyadic pair `(mant, e2)` of value `mant * 2 ^ e2`; `none`
means overflow to infinity.  The grid exponent is the binade minus 52,
floored at the subnormal exponent -1074, and the mantissa is the
half-to-even rounding of `a / b` on that grid; a rounded value at or above
`2 ^ 1024` overflows. -/
def fracToDouble (a b : Nat) : Option (Nat × Int) :=
  if a = 0 then some (0, 0)
  else
    let e := fracBinade a b
    let scale : Int := max (e - 52) (-1074)
    let m := rndHalfEven (a * 2 ^ (-scale).toNat) (b * 2 ^ scale.toNat)
    if m < 2 ^ (1024 - scale).toNat then some (m, scale) else none

/-- Exact result of the string numeric grammar: not a number, a signed
infinity, or the signed exact value `m * 10 ^ p10`. -/
inductive JsParsed
  | nan
  | inf (neg : Bool)
  | dec (neg : Bool) (m : Nat) (p10 : Int)
deriving DecidableEq

/-- A JavaScript number: not a number, a signed infinity, or the finite
double of value `(-1) ^ neg * mant * 2 ^ exp2`. -/
inductive JsNum
  | nan
  | inf (neg : Bool)
  | val (neg : Bool) (mant : Nat) (exp2 : Int)
deriving DecidableEq

/-- Exponent digits after `e` and an optional sign. -/
def expDigits (ds : Str) (neg : Bool) : Option Int :=
  if ds ≠ [] ∧ ds.all isDigitChar then
    some (if neg then -(digitsToNat ds : Int) else (digitsToNat ds : Int))
  else none

/-- The optional exponent part closing a decimal literal: empty, or `e`/`E`,
an optional sign and at least one digit; anything else is a syntax error. -/
def parseExpPart (r : Str) : Option Int :=
  match r with
  | [] => some 0
  | c :: rest =>
    if c = 'e' ∨ c = 'E' then
      match rest with
      | [] => none
      | d :: ds2 =>
        if d = '+' then expDigits ds2 false
        else if d = '-' then expDigits ds2 true
        else expDigits rest false
    else none

/-- An unsigned decimal literal `digits [. digits] [exp]` or `. digits
[exp]`, as the exact pair `(m, p10)` of value `m * 10 ^ p10`. -/
def parseDecLit (t : Str) : Option (Nat × Int) :=
  let ip := t.takeWhile isDigitChar
  let r1 := t.dropWhile isDigitChar
  match r1 with
  | [] => if ip = [] then none else some (digitsToNat ip, 0)
  | c :: r2 =>
    if c = '.' then
      let fp := r2.takeWhile isDigitChar
      let r3 := r2.dropWhile isDigitChar
      if ip = [] ∧ fp = [] then none
      else
        (parseExpPart r3).map fun ex =>
          (digitsToNat (ip ++ fp), ex - (fp.length : Int))
    else
      if ip = [] then none
      else (parseExpPart r1).map fun ex => (digitsToNat ip, ex)

/-- The literal `Infinity`. -/
def INFIN : Str := chars "Infinity"

/-- A possibly signed body: `Infinity` or a decimal literal (radix literals
take no sign in the grammar). -/
def parseSigned (neg : Bool) (r : Str) : JsParsed :=
  if r = INFIN then .inf neg
  else
    match parseDecLit r with
    | some (m, p) => .dec neg m p
    | none => .nan

/-- The unsigned radix literals `0x`, `0o`, `0b` (either case); `some`
means the input is claimed by a radix prefix, well formed or not. -/
def parseRadix (t : Str) : Option JsParsed :=
  match t with
  | c0 :: c1 :: r =>
    if c0 = '0' then
      if c1 = 'x' ∨ c1 = 'X' then
        some (if r ≠ [] ∧ r.all isHexDigit then .dec false (hexToNat r) 0 else .nan)
      else if c1 = 'o' ∨ c1 = 'O' then
        some (if r ≠ [] ∧ r.all isOctDigit then .dec false (octToNat r) 0 else .nan)
      else if c1 = 'b' ∨ c1 = 'B' then
        some (if r ≠ [] ∧ r.all isBinDigit then .dec false (binToNat r) 0 else .nan)
      else none
    else none
  | _ => none

/-- The exact value of `Number(s)` before rounding: whitespace is trimmed,
the empty remainder is 0, then a sign, a radix literal or an unsigned
decimal literal. -/
def jsParseNumber (s : Str) : JsParsed :=
  let t := trimStr s
  match t with
  | [] => .dec false 0 0
  | c :: r =>
    if c = '+' then parseSigned false r
    else if c = '-' then parseSigned true r
    else
      match parseRadix t with
      | some j => j
      | none => parseSigned false t

/-- The value `m * 10 ^ p` as an explicit fraction of naturals. -/
def decForm (m : Nat) (p : Int) : Nat × Nat :=
  (m * 10 ^ p.toNat, 10 ^ (-p).toNat)

/-- Rounds the exact parsed value to its double. -/
def jsRound (neg : Bool) (m : Nat) (p : Int) : JsNum :=
  match fracToDouble (decForm m p).1 (decForm m p).2 with
  | some (mant, e2) => .val neg mant e2
  | none => .inf neg

/-- The model of `Number(s)` for a string argument: exact parse then
rounding to the nearest double. -/
def jsNumber (s : Str) : JsNum :=
  match jsParseNumber s with
  | .dec neg m p => jsRound neg m p
  | .inf b => .inf b
  | .nan => .nan

/-- Whether the finite double `mant * 2 ^ e2` is an integer, and that
integer: the model of `Number.isInteger` plus the conversion to the stored
set element. -/
def doubleToInt? (mant : Nat) (e2 : Int) : Option Nat :=
  if 0 ≤ e2 then some (mant * 2 ^ e2.toNat)
  else if mant % 2 ^ (-e2).toNat = 0 then some (mant / 2 ^ (-e2).toNat)
  else none

/-- The suffix test of `getNextSessionName` on one remainder:
`Number.isInteger(Number(rest)) && Number(rest) > 0`, returning the number
added to the used set when the test passes.  NaN and the infinities are not
integers; a nonpositive double fails the sign test. -/
def usedNumber? (rest : Str) : Option Nat :=
  match jsNumber rest with
  | .val neg mant e2 =>
    if neg ∨ mant = 0 then none else doubleToInt? mant e2
  | _ => none

/-- Source `SESSION_NAME_MAX`. -/
def SESSION_NAME_MAX : Nat := 24

/-- Core of `buildNumberedSessionName`, taking the already stringified
suffix: the sanitized prefix falls back to `terminal`, then is trimmed to
`max 1 (24 - suffixText.length - 1)` characters and joined with a dash. -/
def buildNumberedSessionNameStr (pfx suffixText : Str) : Str :=
  let safePfx := orTerminal (sanitizeSessionName pfx)
  let maxPfxLen := max 1 (SESSION_NAME_MAX - suffixText.length - 1)
  safePfx.take maxPfxLen ++ '-' :: suffixText

/-- Source `buildNumberedSessionName(prefix, suffix)` at the numeric call
sites (`String(suffix)` applied to a natural number). -/
def buildNumberedSessionName (pfx : Str) (suffix : Nat) : Str :=
  buildNumberedSessionNameStr pfx (natToStr suffix)

/-- Source `buildSessionName(prefix, suffix)`: both parts sanitized; a
sanitized prefix of 23 or more characters is cut to 22 and the suffix to one
character, otherwise the suffix is cut to `max 1 (24 - prefixLen - 1)`. -/
def buildSessionName (pfx sfx : Str) : Str :=
  let safePfx := orTerminal (sanitizeSessionName pfx)
  let safeSfx := sanitizeSessionName sfx
  if SESSION_NAME_MAX - 1 ≤ safePfx.length then
    safePfx.take (SESSION_NAME_MAX - 2) ++ '-' :: safeSfx.take 1
  else
    safePfx ++ '-' :: safeSfx.take (max 1 (SESSION_NAME_MAX - safePfx.length - 1))

/-- The numbers already taken for a prefix token: every session whose name
starts with `token` and whose remainder passes the `Number`-based
positive-integer test.  Source: the `sessions.forEach` loop of
`getNextSessionName`. -/
def usedNumbers (token : Str) (sessions : List Str) : List Nat :=
  sessions.filterMap fun name =>
    if token.isPrefixOf name then usedNumber? (name.drop token.length)
    else none

/-- Fueled model of `let next = 1; while (used.has(next)) next += 1`; with
fuel above `used.length` it returns the least number from `n` upward that is
not in `used`. -/
def nextFreeFrom : Nat → Nat → List Nat → Nat
  | 0, n, _ => n
  | fuel + 1, n, used => if n ∈ used then nextFreeFrom fuel (n + 1) used else n

/-- The sanitized-or-fallback prefix computed by `getNextSessionName`. -/
def safePfxOf (pfx : Str) : Str := orTerminal (sanitizeSessionName pfx)

/-- The used-number set of `getNextSessionName(pfx)` against session list
`S`. -/
def usedOf (pfx : Str) (S : List Str) : List Nat :=
  usedNumbers (safePfxOf pfx ++ ['-']) S

/-- The numeric suffix chosen by `getNextSessionName(pfx)`. -/
def chosenNext (pfx : Str) (S : List Str) : Nat :=
  nextFreeFrom ((usedOf pfx S).length + 1) 1 (usedOf pfx S)

/-- Source `getNextSessionName(prefix)`, with the awaited `listSessions()`
result passed in as `S`.  The `catch` branch of the source wraps only that
external call and is unreachable in the model. -/
def getNextSessionName (pfx : Str) (S : List Str) : Str :=
  buildNumberedSessionName (safePfxOf pfx) (chosenNext pfx S)

/-! ### Multiplexer output parsers -/

/-- ASCII lowercasing of one character, the model of `toLowerCase` (non-ASCII
letters are outside the model). -/
def lowerChar (c : Char) : Char :=
  if c = 'A' then 'a' else if c = 'B' then 'b' else if c = 'C' then 'c'
  else if c = 'D' then 'd' else if c = 'E' then 'e' else if c = 'F' then 'f'
  else if c = 'G' then 'g' else if c = 'H' then 'h' else if c = 'I' then 'i'
  else if c = 'J' then 'j' else if c = 'K' then 'k' else if c = 'L' then 'l'
  else if c = 'M' then 'm' else if c = 'N' then 'n' else if c = 'O' then 'o'
  else if c = 'P' then 'p' else if c = 'Q' then 'q' else if c = 'R' then 'r'
  else if c = 'S' then 's' else if c = 'T' then 't' else if c = 'U' then 'u'
  else if c = 'V' then 'v' else if c = 'W' then 'w' else if c = 'X' then 'x'
  else if c = 'Y' then 'y' else if c = 'Z' then 'z' else c

/-- JavaScript `toLowerCase` on the ASCII fragment. -/
def toLowerStr (s : Str) : Str := s.map lowerChar

/-- Source `parseTmuxSessions`: empty input short-circuits; otherwise split
on newlines, drop empty lines, take the part before the first colon, drop
empty names. -/
def parseTmuxSessions (out : Str) : List Str :=
  if out = [] then []
  else
    ((((out.splitOn '\n').filter (· ≠ [])).map
      (fun line => line.takeWhile (· ≠ ':'))).filter (· ≠ []))

/-- Executable substring test: `needle` occurs contiguously in `hay`. -/
def containsSub (needle hay : Str) : Bool :=
  (List.range (hay.length + 1)).any fun i => needle.isPrefixOf (hay.drop i)

/-- The case-insensitive substring test `/No Sockets found/i.test(out)`. -/
def hasNoSockets (out : Str) : Bool :=
  containsSub (chars "no sockets found") (toLowerStr out)

/-- Greedy match of the screen line regex `^\d+\.(\S+)\s`, returning the
captured name: a maximal nonempty digit run, a literal dot, a maximal
nonempty run of non-whitespace (the capture) and then one whitespace
character. -/
def screenLineName (line : Str) : Option Str :=
  if line.takeWhile isDigitChar = [] then none
  else
    match line.dropWhile isDigitChar with
    | '.' :: rest =>
      let name := rest.takeWhile fun c => !isWsChar c
      if name = [] then none
      else
        match rest.dropWhile fun c => !isWsChar c with
        | c :: _ => if isWsChar c then some name else none
        | [] => none
    | _ => none

/-- Source `parseScreenSessions`: empty or "No Sockets found" output means no
sessions; otherwise each line is trimmed and matched against
`^\d+\.(\S+)\s`, keeping the captures. -/
def parseScreenSessions (out : Str) : List Str :=
  if out = [] ∨ hasNoSockets out then []
  else (out.splitOn '\n').filterMap fun line => screenLineName (trimStr line)

/-! ### Backend adapter -/

/-- Source type `Backend`. -/
inductive Backend
  | tmux
  | screen
deriving DecidableEq

/-- Resolved result of `execFileResult`: trimmed stdout, trimmed stderr and
whether the callback received a non-null error. -/
structure ExecResult where
  stdout : Str
  stderr : Str
  error : Bool
deriving DecidableEq

/-- The trimming applied by `execFileResult` to both output streams. -/
def execFileResultModel (stdout stderr : Str) (error : Bool) : ExecResult :=
  ⟨trimStr stdout, trimStr stderr, error⟩

/-- The combined output `[stdout, stderr].filter(Boolean).join('\n').trim()`
that the screen branch of `listSessions` parses. -/
def screenCombined (r : ExecResult) : Str :=
  trimStr (List.intercalate ['\n'] ([r.stdout, r.stderr].filter (· ≠ [])))

/-- Source `listSessions`, with the external `execFileResult` outcome passed
in as `r`.  The screen branch ignores the error flag and parses the combined
output; the tmux branch maps any error to the empty list. -/
def listSessions (b : Backend) (r : ExecResult) : List Str :=
  match b with
  | .screen => parseScreenSessions (screenCombined r)
  | .tmux => if r.error then [] else parseTmuxSessions r.stdout

/-! ### Shell escaping -/

/-- Source `shellEscape`: wrap in single quotes after replacing every inner
single quote by the four characters of the sequence quote backslash quote
quote. -/
def shellEscape (value : Str) : Str :=
  '\'' :: (value.flatMap fun c =>
    if c = '\'' then ['\'', '\\', '\'', '\''] else [c]) ++ ['\'']

/-- Source `attachSessionCommand`. -/
def attachSessionCommand (b : Backend) (session : Str) : Str :=
  match b with
  | .screen => chars "screen -r " ++ shellEscape session
  | .tmux => chars "tmux attach -t " ++ shellEscape session

/-- The command line built by `createSession` (the model stops at the string
handed to `execSync`). -/
def createSessionCommand (b : Backend) (session shellCommand : Str) : Str :=
  match b with
  | .screen => chars "screen -dmS " ++ shellEscape session ++ ' ' :: shellCommand
  | .tmux => chars "tmux new -d -s " ++ shellEscape session ++ ' ' :: shellCommand

/-- Modelled from the spec: POSIX shell quote removal for a word, the
decoding side of the round-trip property (the shell itself is external to
the repository).  Outside quotes a backslash escapes the next character and
a single quote opens a literal segment that runs to the matching quote;
an unterminated quote or trailing backslash is an error. -/
def shellUnquoteGo (inQ : Bool) (s : Str) : Option Str :=
  match s with
  | [] => if inQ then none else some []
  | c :: rest =>
    if inQ then
      if c = '\'' then shellUnquoteGo false rest
      else (shellUnquoteGo true rest).map (c :: ·)
    else
      if c = '\'' then shellUnquoteGo true rest
      else if c = '\\' then
        match rest with
        | [] => none
        | d :: rest2 => (shellUnquoteGo false rest2).map (d :: ·)
      else (shellUnquoteGo false rest).map (c :: ·)

/-- Modelled from the spec: full POSIX unquoting of a word. -/
def shellUnquote (s : Str) : Option Str := shellUnquoteGo false s

/-! ### Group classifier -/

/-- Source `FAVORITES_GROUP`. -/
def FAVORITES : Str := chars "favorites"

/-- Characters kept by the tool-name cleanup regex `[^a-z0-9]+` (applied
after lowercasing). -/
def isToolChar (c : Char) : Bool :=
  (decide ('a' ≤ c) && decide (c ≤ 'z')) || isDigitChar c

/-- Replaces each maximal run of excluded characters by a single dash,
the model of `replace(/[^a-z0-9]+/g, '-')`.  The flag records whether the
previous character was part of an excluded run. -/
def collapseInvalid : Bool → Str → Str
  | _, [] => []
  | prevBad, c :: rest =>
    if isToolChar c then c :: collapseInvalid false rest
    else if prevBad then collapseInvalid true rest
    else '-' :: collapseInvalid true rest

/-- The stripping of leading and trailing dash runs performed by
`getToolPrefix` with its two anchored replace calls. -/
def stripDashes (s : Str) : Str :=
  ((s.dropWhile (· = '-')).reverse.dropWhile (· = '-')).reverse

/-- Node `path.basename` on POSIX paths: drop trailing slashes, then keep
the part after the last remaining slash. -/
def basenameStr (p : Str) : Str :=
  let q := (p.reverse.dropWhile (· = '/')).reverse
  (q.reverse.takeWhile (· ≠ '/')).reverse

/-- Source `getToolPrefix`: trim, first whitespace-delimited token, its
basename, lowercased, runs of other characters collapsed to dashes, outer
dashes stripped; empty results fall back to `tool`. -/
def getToolPrefix (command : Str) : Str :=
  let trimmed := trimStr command
  if trimmed = [] then chars "tool"
  else
    let firstToken := trimmed.takeWhile fun c => !isWsChar c
    let cleaned := stripDashes
      (collapseInvalid false (toLowerStr (basenameStr firstToken)))
    if cleaned = [] then chars "tool" else cleaned

/-- Accumulator loop of `TerminalProvider.getToolGroups`: one pair per
distinct tool name, skipping names equal to `terminal` or `favorites`. -/
def getToolGroupsGo : List Str → List Str → List (Str × Str) → List (Str × Str)
  | [], _, acc => acc.reverse
  | cmd :: rest, seen, acc =>
    let name := getToolPrefix cmd
    if name = [] ∨ name ∈ seen ∨ name = chars "terminal" ∨ name = FAVORITES then
      getToolGroupsGo rest seen acc
    else
      getToolGroupsGo rest (name :: seen) ((name, cmd) :: acc)

/-- Source `TerminalProvider.getToolGroups`, with the configured tool
commands passed in as `tools`. -/
def getToolGroups (tools : List Str) : List (Str × Str) :=
  getToolGroupsGo ((tools.map trimStr).filter (· ≠ [])) [] []

/-- Case-insensitive dedup loop of `getKnownGroupNames`: each name is
lowercased, skipped when already seen, pushed lowercased otherwise. -/
def dedupeLowerGo : List Str → List Str → List Str → List Str
  | [], _, acc => acc.reverse
  | n :: rest, seen, acc =>
    let low := toLowerStr n
    if low ∈ seen then dedupeLowerGo rest seen acc
    else dedupeLowerGo rest (low :: seen) (low :: acc)

/-- Stable insertion into a list sorted by weakly decreasing length. -/
def insertDesc (a : Str) : List Str → List Str
  | [] => [a]
  | b :: t => if b.length < a.length then a :: b :: t else b :: insertDesc a t

/-- Sorting by weakly decreasing string length, the model of
`unique.sort((a, b) => b.length - a.length)`. -/
def sortDesc : List Str → List Str
  | [] => []
  | a :: t => insertDesc a (sortDesc t)

/-- Source `TerminalProvider.getKnownGroupNames`, with the merged tool
command list passed in as `tools`. -/
def getKnownGroupNames (tools : List Str) : List Str :=
  sortDesc
    (dedupeLowerGo (chars "terminal" :: (getToolGroups tools).map Prod.fst) [] [])

/-- Characters of the class `[a-z0-9-]` under the `/i` flag. -/
def isGroupChar (c : Char) : Bool :=
  (decide ('a' ≤ c) && decide (c ≤ 'z')) ||
  (decide ('A' ≤ c) && decide (c ≤ 'Z')) || isDigitChar c || decide (c = '-')

/-- What `.` may match in the fallback regex: any character except a line
terminator. -/
def notLineTerm (c : Char) : Bool := !(decide (c = '\n') || decide (c = '\r'))

/-- Greedy split of the fallback regex `^(.+)-([a-z0-9-]+)$/i`: the largest
cut `j` with a dash at `j`, a nonempty all-class remainder after it and a
nonempty line-terminator-free part before it; `some j` means group 1 is
`s.take j`. -/
def fallbackSplit (s : Str) : Option Nat :=
  ((List.range s.length).reverse).find? fun j =>
    decide (1 ≤ j) && (s[j]? == some '-') &&
    decide (s.drop (j + 1) ≠ []) && (s.drop (j + 1)).all isGroupChar &&
    (s.take j).all notLineTerm

/-- Source `getSessionGroupName`: first known group (in list order) whose
dashed form starts the lowercased session name; otherwise the lowercased
first capture of the fallback regex, with `favorites` and the empty string
mapped to `terminal`; otherwise `terminal`. -/
def getSessionGroupName (session : Str) (knownGroups : List Str) : Str :=
  let lowered := toLowerStr session
  match knownGroups.find? (fun g => (g ++ ['-']).isPrefixOf lowered) with
  | some g => g
  | none =>
    match fallbackSplit session with
    | some j =>
      let group := toLowerStr (session.take j)
      if group = FAVORITES then chars "terminal"
      else if group = [] then chars "terminal" else group
    | none => chars "terminal"

/-! ### Session cache state machine -/

/-- The cache-relevant fields of a `TerminalProvider`, instrumented with the
identities of the `listSessions` promises it has started.  `fetchHandle`
models the `sessionsFetch` field (the stored promise), `pending` the started
but not yet resolved `listSessions` invocations, `started` their total
count. -/
structure CacheState where
  sessionsCache : Option (List Str)
  sessionsCacheAt : Int
  fetchHandle : Option Nat
  pending : List Nat
  nextId : Nat
  started : Nat
deriving DecidableEq

/-- Initial provider state: no cache, timestamp 0, no fetch. -/
def cacheInit : CacheState := ⟨none, 0, none, [], 0, 0⟩

/-- The events the cache reacts to: a `getSessions()` call at clock `now`, a
resolution of the fetch with identity `id`, and `refresh()`. -/
inductive CEvent
  | get (now : Int)
  | resolve (id : Nat) (sessions : List Str) (now : Int)
  | refresh
deriving DecidableEq

/-- The cache-hit test of `getSessions`: a cached list exists (even an empty
one is truthy) and is younger than the 500 ms TTL. -/
def cacheHit (s : CacheState) (now : Int) : Bool :=
  s.sessionsCache.isSome && decide (now - s.sessionsCacheAt < 500)

/-- One step of the provider.  `get`: on a cache hit or with a stored fetch,
nothing changes; otherwise a new `listSessions` invocation starts and its
promise is stored.  `resolve`: the `then` handler stores the list and
timestamp and the `finally` handler clears the stored promise field
unconditionally.  `refresh`: clears the cache and the stored promise but
cannot cancel an invocation that is already running. -/
def cacheStep (s : CacheState) : CEvent → CacheState
  | .get now =>
    if cacheHit s now then s
    else if s.fetchHandle.isSome then s
    else
      { s with fetchHandle := some s.nextId, pending := s.nextId :: s.pending,
               nextId := s.nextId + 1, started := s.started + 1 }
  | .resolve id sessions now =>
    if id ∈ s.pending then
      { s with pending := s.pending.erase id, sessionsCache := some sessions,
               sessionsCacheAt := now, fetchHandle := none }
    else s
  | .refresh => { s with sessionsCache := none, fetchHandle := none }

/-- A whole history of events applied to a fresh provider. -/
def cacheRun (events : List CEvent) : CacheState :=
  events.foldl cacheStep cacheInit

/-- Stated from the claim wording for comparison with the source model:
split on newlines, drop empty lines, and keep for every remaining line the
part before the first colon. -/
def parseTmuxSessionsClaimed (out : Str) : List Str :=
  ((out.splitOn '\n').filter (· ≠ [])).map fun line => line.takeWhile (· ≠ ':')

/-! ## Theorems -/

/-! ### Sanitizer -/

theorem sanitizeChar_idem (c : Char) : sanitizeChar (sanitizeChar c) = sanitizeChar c := by
  unfold sanitizeChar
  by_cases h : isNameChar c = true
  · simp [h]
  · simp [h]

theorem sanitize_twice (x : Str) :
    sanitizeSessionName (sanitizeSessionName x) = sanitizeSessionName x := by
  induction x with
  | nil => rfl
  | cons c t ih =>
    simpa [sanitizeSessionName, sanitizeChar_idem c] using ih

theorem sanitize_length (x : Str) :
    (sanitizeSessionName x).length = x.length := by
  simp [sanitizeSessionName]

theorem safePfx_ne_nil (p : Str) : safePfxOf p ≠ [] := by
  unfold safePfxOf orTerminal
  by_cases h : sanitizeSessionName p = []
  · simp [h, chars]
  · simp [h]

theorem safePfx_sanitize (p : Str) :
    sanitizeSessionName (safePfxOf p) = safePfxOf p := by
  unfold safePfxOf orTerminal
  by_cases h : sanitizeSessionName p = []
  · simp only [h, if_pos]
    decide
  · simp only [h, if_neg, ite_false]
    exact sanitize_twice p

theorem orTerminal_safePfx (p : Str) :
    orTerminal (sanitizeSessionName (safePfxOf p)) = safePfxOf p := by
  rw [safePfx_sanitize]
  unfold orTerminal
  simp [safePfx_ne_nil p]

/-- C9: `sanitizeSessionName` replaces every character outside the class
`[A-Za-z0-9-]` by a dash and is idempotent: sanitizing twice equals
sanitizing once, for every string. -/
theorem sanitize_idempotent :
    (∀ x : Str, sanitizeSessionName x = x.map fun c => if isNameChar c then c else '-') ∧
    ∀ x : Str, sanitizeSessionName (sanitizeSessionName x) = sanitizeSessionName x :=
  ⟨fun _ => rfl, sanitize_twice⟩

/-! ### Name length bounds -/

/-- C3 (amended): `buildSessionName` never exceeds 24 characters, for all
prefixes and suffixes including the empty suffix; a numbered name from
`buildNumberedSessionName` stays within 24 characters whenever the rendered
numeric suffix has at most 22 characters (true of every decimal integer
JavaScript prints in full), while longer suffix texts overflow the bound. -/
theorem session_name_length_bound :
    (∀ p s : Str, (buildSessionName p s).length ≤ 24) ∧
    (∀ p s : Str, s.length ≤ 22 → (buildNumberedSessionNameStr p s).length ≤ 24) ∧
    (∀ (p : Str) (n : Nat), (natToStr n).length ≤ 22 →
      (buildNumberedSessionName p n).length ≤ 24) := by
  have hnum : ∀ p s : Str, s.length ≤ 22 →
      (buildNumberedSessionNameStr p s).length ≤ 24 := by
    intro p s hs
    simp only [buildNumberedSessionNameStr, SESSION_NAME_MAX, List.length_append,
      List.length_cons, List.length_take]
    omega
  refine ⟨?_, hnum, fun p n hn => hnum p (natToStr n) hn⟩
  intro p s
  simp only [buildSessionName, SESSION_NAME_MAX]
  split
  · simp only [List.length_append, List.length_cons, List.length_take]
    omega
  · rename_i hlt
    simp only [List.length_append, List.length_cons, List.length_take]
    omega

/-- C3 counterexample: with a 23-character suffix text (admitted by the
source signature `suffix: number | string`) the numbered name has 25
characters. -/
theorem numbered_name_length_overflow :
    ¬ (buildNumberedSessionNameStr (chars "terminal")
        (chars "12345678901234567890123")).length ≤ 24 := by decide

/-- C3 witness. -/
theorem session_name_length_bound_case :
    (buildSessionName (chars "codex") (chars "review")).length ≤ 24 ∧
    (buildNumberedSessionName (chars "codex") 7).length ≤ 24 :=
  ⟨session_name_length_bound.1 (chars "codex") (chars "review"),
   session_name_length_bound.2.2 (chars "codex") 7 (by decide)⟩

/-! ### Tmux parser -/

/-- C5 (amended): `parseTmuxSessions` splits on newlines, drops empty
lines, takes the part of each line before the first colon, and additionally
drops entries whose extracted name is empty; on the claimed example it
yields `foo` and `bar`. -/
theorem parseTmux_drops_empty_names :
    (∀ out : Str,
      parseTmuxSessions out = (parseTmuxSessionsClaimed out).filter (· ≠ [])) ∧
    parseTmuxSessions
        (chars "foo: 1 windows (created ...)\nbar: 2 windows (created ...)\n") =
      [chars "foo", chars "bar"] := by
  constructor
  · intro out
    by_cases h : out = []
    · subst h
      decide
    · simp [parseTmuxSessions, parseTmuxSessionsClaimed, h]
  · decide

/-- C5 counterexample: on the input `:x` the code returns no names while
the claimed description keeps the empty name extracted before the colon. -/
theorem parseTmux_colon_line_case :
    parseTmuxSessions (chars ":x") ≠ parseTmuxSessionsClaimed (chars ":x") := by
  decide

/-! ### Group ordering -/

theorem insertDesc_perm (a : Str) (l : List Str) : List.Perm (insertDesc a l) (a :: l) := by
  induction l with
  | nil => rfl
  | cons b t ih =>
    unfold insertDesc
    split
    · rfl
    · exact (ih.cons b).trans (List.Perm.swap a b t)

theorem pairwise_insertDesc {a : Str} {l : List Str}
    (h : l.Pairwise fun x y => y.length ≤ x.length) :
    (insertDesc a l).Pairwise fun x y => y.length ≤ x.length := by
  induction l with
  | nil => simp [insertDesc]
  | cons b t ih =>
    rcases List.pairwise_cons.mp h with ⟨hb, ht⟩
    unfold insertDesc
    split
    · rename_i hlt
      refine List.pairwise_cons.mpr ⟨?_, h⟩
      intro x hx
      rcases List.mem_cons.mp hx with rfl | hx
      · omega
      · have := hb x hx
        omega
    · rename_i hge
      refine List.pairwise_cons.mpr ⟨?_, ih ht⟩
      intro x hx
      rcases List.mem_cons.mp ((insertDesc_perm a t).mem_iff.mp hx) with h' | h'
      · subst h'
        omega
      · exact hb x h'

theorem sortDesc_perm (l : List Str) : List.Perm (sortDesc l) l := by
  induction l with
  | nil => rfl
  | cons a t ih => exact (insertDesc_perm a (sortDesc t)).trans (ih.cons a)

theorem sortDesc_pairwise (l : List Str) :
    (sortDesc l).Pairwise fun x y => y.length ≤ x.length := by
  induction l with
  | nil => simp [sortDesc]
  | cons a t ih => exact pairwise_insertDesc ih

/-- C4: `getKnownGroupNames` returns exactly the deduplicated known group
names, ordered by weakly decreasing string length; `getSessionGroupName`
returns the first known group (hence, given that order, a longest one)
whose dashed form starts the lowercased session name; and the session
`codex-review-1` is classified under `codex-review`, not `codex`, when both
are known. -/
theorem known_groups_sorted_first_match :
    (∀ tools : List Str,
      ((getKnownGroupNames tools).Pairwise fun x y => y.length ≤ x.length) ∧
      List.Perm (getKnownGroupNames tools)
        (dedupeLowerGo (chars "terminal" :: (getToolGroups tools).map Prod.fst) [] [])) ∧
    (∀ (session : Str) (ks : List Str) (g : Str),
      ks.find? (fun g0 => (g0 ++ ['-']).isPrefixOf (toLowerStr session)) = some g →
      getSessionGroupName session ks = g) ∧
    getSessionGroupName (chars "codex-review-1") [chars "codex-review", chars "codex"] =
      chars "codex-review" := by
  refine ⟨fun tools => ⟨sortDesc_pairwise _, sortDesc_perm _⟩, ?_, by decide⟩
  intro session ks g h
  simp [getSessionGroupName, h]

/-- C4 witness. -/
theorem known_groups_sorted_first_match_case :
    getSessionGroupName (chars "codex-1") [chars "codex"] = chars "codex" :=
  known_groups_sorted_first_match.2.1 (chars "codex-1") [chars "codex"]
    (chars "codex") (by decide)

/-! ### Session cache -/

theorem cacheStep_get_inflight (s : CacheState) (t : Int)
    (h : s.fetchHandle.isSome = true) : cacheStep s (.get t) = s := by
  by_cases hh : cacheHit s t = true
  · simp [cacheStep, hh]
  · simp [cacheStep, hh, h]

theorem cache_inv_step (s : CacheState) (e : CEvent) (he : e ≠ CEvent.refresh)
    (h : s.fetchHandle = none ∧ s.pending = [] ∨
      ∃ id, s.fetchHandle = some id ∧ s.pending = [id]) :
    (cacheStep s e).fetchHandle = none ∧ (cacheStep s e).pending = [] ∨
      ∃ id, (cacheStep s e).fetchHandle = some id ∧ (cacheStep s e).pending = [id] := by
  cases e with
  | get now =>
    by_cases hh : cacheHit s now = true
    · simpa [cacheStep, hh] using h
    · rcases h with ⟨h1, h2⟩ | ⟨id, h1, h2⟩
      · right
        exact ⟨s.nextId, by simp [cacheStep, hh, h1, h2]⟩
      · right
        exact ⟨id, by simp [cacheStep, hh, h1, h2]⟩
  | resolve id sessions now =>
    rcases h with ⟨h1, h2⟩ | ⟨id0, h1, h2⟩
    · left
      have hnm : id ∉ s.pending := by simp [h2]
      simp only [cacheStep, if_neg hnm]
      exact ⟨h1, h2⟩
    · by_cases hm : id ∈ s.pending
      · left
        have hid : id = id0 := by
          rw [h2] at hm
          exact List.mem_singleton.mp hm
        subst hid
        simp [cacheStep, hm, h2]
      · right
        refine ⟨id0, ?_⟩
        simp only [cacheStep, if_neg hm]
        exact ⟨h1, h2⟩
  | refresh => exact absurd rfl he

theorem cache_inv_fold (events : List CEvent) (s : CacheState)
    (hs : s.fetchHandle = none ∧ s.pending = [] ∨
      ∃ id, s.fetchHandle = some id ∧ s.pending = [id])
    (h : ∀ e ∈ events, e ≠ CEvent.refresh) :
    (events.foldl cacheStep s).fetchHandle = none ∧
        (events.foldl cacheStep s).pending = [] ∨
      ∃ id, (events.foldl cacheStep s).fetchHandle = some id ∧
        (events.foldl cacheStep s).pending = [id] := by
  induction events generalizing s with
  | nil => simpa using hs
  | cons e rest ih =>
    simp only [List.foldl_cons]
    exact ih (cacheStep s e)
      (cache_inv_step s e (h e (List.mem_cons_self e rest)) hs)
      (fun x hx => h x (List.mem_cons_of_mem e hx))

/-- C2 (amended): in every state reachable by `getSessions` calls and fetch
resolutions alone, at most one `listSessions` invocation started by the
cache is unresolved, and two `getSessions` calls issued from a miss state
before the first resolves start exactly one invocation.  (With `refresh()`
interleaved the single-flight bound does not hold, because `refresh` drops
the stored promise without cancelling the running invocation.) -/
theorem cache_single_flight :
    (∀ events : List CEvent, (∀ e ∈ events, e ≠ CEvent.refresh) →
      (cacheRun events).pending.length ≤ 1) ∧
    (∀ (s : CacheState) (t t2 : Int), cacheHit s t = false → s.fetchHandle = none →
      (cacheStep (cacheStep s (.get t)) (.get t2)).started = s.started + 1) := by
  constructor
  · intro events h
    rcases cache_inv_fold events cacheInit (Or.inl ⟨rfl, rfl⟩) h with ⟨_, h2⟩ | ⟨id, _, h2⟩ <;>
      simp [cacheRun, h2]
  · intro s t t2 h1 h2
    have hs1 : cacheStep s (.get t) =
        { s with fetchHandle := some s.nextId, pending := s.nextId :: s.pending,
                 nextId := s.nextId + 1, started := s.started + 1 } := by
      simp [cacheStep, h1, h2]
    rw [cacheStep_get_inflight (cacheStep s (.get t)) t2 (by rw [hs1]; rfl), hs1]

/-- C2 witness. -/
theorem cache_single_flight_case :
    (cacheRun [CEvent.get 0, CEvent.resolve 0 [] 3]).pending.length ≤ 1 ∧
    (cacheStep (cacheStep cacheInit (.get 0)) (.get 0)).started = cacheInit.started + 1 :=
  ⟨cache_single_flight.1 [CEvent.get 0, CEvent.resolve 0 [] 3] (by decide),
   cache_single_flight.2 cacheInit 0 0 (by decide) rfl⟩

/-- C2 counterexample: the history get, refresh, get leaves two started and
unresolved `listSessions` invocations, so the claimed bound over all
interleavings that include `refresh()` fails. -/
theorem cache_refresh_double_fetch :
    ¬ (cacheRun [CEvent.get 0, CEvent.refresh, CEvent.get 0]).pending.length ≤ 1 := by
  decide

/-! ### Listing failures -/

/-- C7 (amended): a failing `tmux ls` always yields the empty session list;
for screen the error flag is ignored and the combined output is parsed, so
a backend that is not installed (no output) or not running ("No Sockets
found") yields the empty list, but a non-zero exit whose output still lists
sessions yields those sessions rather than the empty list. -/
theorem listSessions_failure_empty :
    (∀ r : ExecResult, r.error = true → listSessions .tmux r = []) ∧
    (∀ (st se : Str) (e : Bool), trimStr st = [] → trimStr se = [] →
      listSessions .screen (execFileResultModel st se e) = []) ∧
    (∀ r : ExecResult, hasNoSockets (screenCombined r) = true →
      listSessions .screen r = []) := by
  refine ⟨?_, ?_, ?_⟩
  · intro r h
    simp [listSessions, h]
  · intro st se e h1 h2
    unfold execFileResultModel
    rw [h1, h2]
    rfl
  · intro r h
    simp [listSessions, parseScreenSessions, h]

/-- C7 witness. -/
theorem listSessions_failure_empty_case :
    listSessions .tmux ⟨[], [], true⟩ = [] ∧
    listSessions .screen (execFileResultModel [] [] true) = [] ∧
    listSessions .screen ⟨chars "No Sockets found in x.", [], true⟩ = [] :=
  ⟨listSessions_failure_empty.1 ⟨[], [], true⟩ rfl,
   listSessions_failure_empty.2.1 [] [] true rfl rfl,
   listSessions_failure_empty.2.2 ⟨chars "No Sockets found in x.", [], true⟩
     (by decide)⟩

/-- C7 counterexample: for the screen backend a non-zero exit (error flag
set) with a session listing in the output yields that session, not the
empty list. -/
theorem listSessions_screen_error_sessions :
    (⟨chars "There are screens on:\n\t12345.work-1\t(Detached)", [], true⟩ :
        ExecResult).error = true ∧
    listSessions .screen
        ⟨chars "There are screens on:\n\t12345.work-1\t(Detached)", [], true⟩ ≠ [] := by
  exact ⟨rfl, by decide⟩

/-! ### Shell escaping -/

theorem nameChar_ne_quote {c : Char} (h : isNameChar c = true) : c ≠ '\'' := by
  intro hc
  subst hc
  exact absurd h (by decide)

theorem shellEscape_no_quote {s : Str} (h : ∀ c ∈ s, c ≠ '\'') :
    (s.flatMap fun c => if c = '\'' then ['\'', '\\', '\'', '\''] else [c]) = s := by
  induction s with
  | nil => rfl
  | cons c t ih =>
    have hc := h c (List.mem_cons_self c t)
    simp only [List.flatMap_cons, if_neg hc]
    rw [ih fun x hx => h x (List.mem_cons_of_mem c hx)]
    rfl

theorem shellUnquoteGo_quoted {s : Str} (rest : Str) (h : ∀ c ∈ s, c ≠ '\'') :
    shellUnquoteGo true (s ++ '\'' :: rest) =
      (shellUnquoteGo false rest).map (s ++ ·) := by
  induction s with
  | nil =>
    have h1 : shellUnquoteGo true ('\'' :: rest) = shellUnquoteGo false rest := by
      rw [shellUnquoteGo.eq_def]
      simp
    show shellUnquoteGo true ('\'' :: rest) = _
    rw [h1]
    cases shellUnquoteGo false rest <;> rfl
  | cons c t ih =>
    have hc := h c (List.mem_cons_self c t)
    have step : shellUnquoteGo true (c :: (t ++ '\'' :: rest)) =
        (shellUnquoteGo true (t ++ '\'' :: rest)).map (c :: ·) := by
      rw [shellUnquoteGo.eq_def]
      simp [hc]
    rw [List.cons_append, step, ih fun x hx => h x (List.mem_cons_of_mem c hx)]
    cases shellUnquoteGo false rest <;> rfl

/-- C8: for every name over the sanitizer alphabet `[A-Za-z0-9-]` (in fact
for any name), POSIX unquoting inverts `shellEscape`, and both
`attachSessionCommand` and the `createSession` command line embed exactly
the escaped name, so attaching targets the session that was created. -/
theorem shellEscape_round_trip :
    ∀ name : Str, name.all isNameChar = true →
      shellUnquote (shellEscape name) = some name ∧
      (∀ b : Backend, ∃ pre : Str,
        attachSessionCommand b name = pre ++ shellEscape name) ∧
      (∀ (b : Backend) (cmd : Str), ∃ pre : Str,
        createSessionCommand b name cmd = pre ++ shellEscape name ++ ' ' :: cmd) := by
  intro name hname
  have hq : ∀ c ∈ name, c ≠ '\'' := by
    intro c hc
    exact nameChar_ne_quote (List.all_eq_true.mp hname c hc)
  refine ⟨?_, ?_, ?_⟩
  · show shellUnquoteGo false (shellEscape name) = some name
    unfold shellEscape
    rw [shellEscape_no_quote hq]
    have h1 : shellUnquoteGo false ('\'' :: (name ++ ['\''])) =
        shellUnquoteGo true (name ++ ['\'']) := by
      rw [shellUnquoteGo.eq_def]
      simp
    rw [List.cons_append, h1, shellUnquoteGo_quoted [] hq]
    simp [shellUnquote, shellUnquoteGo]
  · intro b
    cases b
    · exact ⟨chars "tmux attach -t ", rfl⟩
    · exact ⟨chars "screen -r ", rfl⟩
  · intro b cmd
    cases b
    · exact ⟨chars "tmux new -d -s ", rfl⟩
    · exact ⟨chars "screen -dmS ", rfl⟩

/-- C8 witness. -/
theorem shellEscape_round_trip_case :
    shellUnquote (shellEscape (chars "work-1")) = some (chars "work-1") :=
  (shellEscape_round_trip (chars "work-1") (by decide)).1

/-! ### Group key shape -/

theorem lowerChar_idem (c : Char) : lowerChar (lowerChar c) = lowerChar c := by
  by_cases hA : c = 'A'
  · subst hA; decide
  by_cases hB : c = 'B'
  · subst hB; decide
  by_cases hC : c = 'C'
  · subst hC; decide
  by_cases hD : c = 'D'
  · subst hD; decide
  by_cases hE : c = 'E'
  · subst hE; decide
  by_cases hF : c = 'F'
  · subst hF; decide
  by_cases hG : c = 'G'
  · subst hG; decide
  by_cases hH : c = 'H'
  · subst hH; decide
  by_cases hI : c = 'I'
  · subst hI; decide
  by_cases hJ : c = 'J'
  · subst hJ; decide
  by_cases hK : c = 'K'
  · subst hK; decide
  by_cases hL : c = 'L'
  · subst hL; decide
  by_cases hM : c = 'M'
  · subst hM; decide
  by_cases hN : c = 'N'
  · subst hN; decide
  by_cases hO : c = 'O'
  · subst hO; decide
  by_cases hP : c = 'P'
  · subst hP; decide
  by_cases hQ : c = 'Q'
  · subst hQ; decide
  by_cases hR : c = 'R'
  · subst hR; decide
  by_cases hS : c = 'S'
  · subst hS; decide
  by_cases hT : c = 'T'
  · subst hT; decide
  by_cases hU : c = 'U'
  · subst hU; decide
  by_cases hV : c = 'V'
  · subst hV; decide
  by_cases hW : c = 'W'
  · subst hW; decide
  by_cases hX : c = 'X'
  · subst hX; decide
  by_cases hY : c = 'Y'
  · subst hY; decide
  by_cases hZ : c = 'Z'
  · subst hZ; decide
  have hfix : lowerChar c = c := by
    unfold lowerChar
    simp [hA, hB, hC, hD, hE, hF, hG, hH, hI, hJ, hK, hL, hM, hN, hO, hP, hQ,
      hR, hS, hT, hU, hV, hW, hX, hY, hZ]
  rw [hfix]
  exact hfix

theorem toLowerStr_idem (x : Str) : toLowerStr (toLowerStr x) = toLowerStr x := by
  induction x with
  | nil => rfl
  | cons c t ih => simpa [toLowerStr, lowerChar_idem c] using ih

/-- C10: whenever every known group is a nonempty lowercase string other
than `favorites`, the group key returned by `getSessionGroupName` is itself
nonempty, all-lowercase, and never `favorites` (an inferred `favorites`
group falls back to `terminal`). -/
theorem group_name_wellformed :
    ∀ (session : Str) (ks : List Str),
      (∀ g ∈ ks, g ≠ [] ∧ toLowerStr g = g ∧ g ≠ FAVORITES) →
      getSessionGroupName session ks ≠ [] ∧
      toLowerStr (getSessionGroupName session ks) = getSessionGroupName session ks ∧
      getSessionGroupName session ks ≠ FAVORITES := by
  intro session ks hk
  unfold getSessionGroupName
  cases hf : ks.find? fun g => (g ++ ['-']).isPrefixOf (toLowerStr session) with
  | some g =>
    simp only [hf]
    exact hk g (List.mem_of_find?_eq_some hf)
  | none =>
    simp only [hf]
    cases hj : fallbackSplit session with
    | none =>
      simp only [hj]
      exact ⟨by decide, by decide, by decide⟩
    | some j =>
      simp only [hj]
      by_cases h1 : toLowerStr (session.take j) = FAVORITES
      · simp only [if_pos h1]
        exact ⟨by decide, by decide, by decide⟩
      · simp only [if_neg h1]
        by_cases h2 : toLowerStr (session.take j) = []
        · simp only [if_pos h2]
          exact ⟨by decide, by decide, by decide⟩
        · simp only [if_neg h2]
          exact ⟨h2, toLowerStr_idem _, h1⟩

/-- C10 witness. -/
theorem group_name_wellformed_case :
    getSessionGroupName (chars "work-2") [chars "work"] ≠ [] ∧
    getSessionGroupName (chars "work-2") [chars "work"] ≠ FAVORITES :=
  ⟨(group_name_wellformed (chars "work-2") [chars "work"] (by decide)).1,
   (group_name_wellformed (chars "work-2") [chars "work"] (by decide)).2.2⟩

/-! ### Screen parser -/

theorem takeWhile_append_cons {p : Char → Bool} (xs : Str) (y : Char) (ys : Str)
    (hx : ∀ x ∈ xs, p x = true) (hy : p y = false) :
    (xs ++ y :: ys).takeWhile p = xs := by
  induction xs with
  | nil => simp [List.takeWhile_cons, hy]
  | cons a t ih =>
    have ha := hx a (List.mem_cons_self a t)
    simp [List.takeWhile_cons, ha, ih fun x hxm => hx x (List.mem_cons_of_mem a hxm)]

theorem dropWhile_append_cons {p : Char → Bool} (xs : Str) (y : Char) (ys : Str)
    (hx : ∀ x ∈ xs, p x = true) (hy : p y = false) :
    (xs ++ y :: ys).dropWhile p = y :: ys := by
  induction xs with
  | nil => simp [List.dropWhile_cons, hy]
  | cons a t ih =>
    have ha := hx a (List.mem_cons_self a t)
    simp [List.dropWhile_cons, ha, ih fun x hxm => hx x (List.mem_cons_of_mem a hxm)]

theorem all_takeWhile_self {p : Char → Bool} (l : Str) :
    (l.takeWhile p).all p = true := by
  induction l with
  | nil => rfl
  | cons a t ih =>
    by_cases ha : p a = true
    · simp [List.takeWhile_cons, ha, ih]
    · simp [List.takeWhile_cons, ha]

theorem screenLineName_of_shape (ds name : Str) (w : Char) (rest : Str)
    (hds : ds ≠ []) (hda : ds.all isDigitChar = true) (hn : name ≠ [])
    (hna : name.all (fun c => !isWsChar c) = true) (hw : isWsChar w = true) :
    screenLineName (ds ++ '.' :: (name ++ w :: rest)) = some name := by
  have hdsall : ∀ x ∈ ds, isDigitChar x = true :=
    fun x hx => List.all_eq_true.mp hda x hx
  have hnall : ∀ x ∈ name, (!isWsChar x) = true :=
    fun x hx => List.all_eq_true.mp hna x hx
  have ht1 := takeWhile_append_cons ds '.' (name ++ w :: rest) hdsall (by decide)
  have hd1 := dropWhile_append_cons ds '.' (name ++ w :: rest) hdsall (by decide)
  have ht2 := takeWhile_append_cons name w rest hnall (by simp [hw])
  have hd2 := dropWhile_append_cons name w rest hnall (by simp [hw])
  unfold screenLineName
  rw [ht1, hd1]
  simp only [if_neg hds]
  simp [ht2, hd2, hn, hw]

/-- C6: `parseScreenSessions` yields the empty list exactly on empty input
or output containing "No Sockets found" case-insensitively; otherwise it
trims each newline-separated line and keeps the names of lines shaped
digits, dot, name, whitespace; and the two claimed examples evaluate as
stated. -/
theorem parseScreen_spec :
    (∀ out : Str, out = [] ∨ hasNoSockets out = true →
      parseScreenSessions out = []) ∧
    (∀ out : Str, ¬ (out = [] ∨ hasNoSockets out = true) →
      parseScreenSessions out =
        (out.splitOn '\n').filterMap fun line => screenLineName (trimStr line)) ∧
    (∀ line name : Str, screenLineName line = some name ↔
      ∃ ds w rest, line = ds ++ '.' :: (name ++ w :: rest) ∧ ds ≠ [] ∧
        ds.all isDigitChar = true ∧ name ≠ [] ∧
        name.all (fun c => !isWsChar c) = true ∧ isWsChar w = true) ∧
    parseScreenSessions (chars "No Sockets found in /tmp/.screen.\n") = [] ∧
    parseScreenSessions
        (chars "\t12345.work-1\t(Detached)\n\t12346.work-2\t(Attached)\n") =
      [chars "work-1", chars "work-2"] := by
  refine ⟨?_, ?_, ?_, by decide, by decide⟩
  · intro out h
    simp [parseScreenSessions, h]
  · intro out h
    simp [parseScreenSessions, h]
  · intro line name
    constructor
    · intro hsome
      unfold screenLineName at hsome
      split at hsome
      · exact absurd hsome (by simp)
      · rename_i hds
        split at hsome
        · rename_i rest hdrop
          simp only [] at hsome
          split at hsome
          · exact absurd hsome (by simp)
          · rename_i hn0
            split at hsome
            · rename_i c tail hdrop2
              split at hsome
              · rename_i hwc
                have hname : rest.takeWhile (fun x => !isWsChar x) = name :=
                  Option.some.inj hsome
                have hrest : rest = name ++ c :: tail := by
                  conv_lhs =>
                    rw [← List.takeWhile_append_dropWhile
                      (p := fun x => !isWsChar x) (l := rest)]
                  rw [hname, hdrop2]
                refine ⟨line.takeWhile isDigitChar, c, tail, ?_, hds,
                  all_takeWhile_self line, ?_, ?_, hwc⟩
                · conv_lhs =>
                    rw [← List.takeWhile_append_dropWhile
                      (p := isDigitChar) (l := line)]
                  rw [hdrop, hrest]
                · rw [← hname]
                  exact hn0
                · rw [← hname]
                  exact all_takeWhile_self rest
              · exact absurd hsome (by simp)
            · exact absurd hsome (by simp)
        · exact absurd hsome (by simp)
    · intro hshape
      rcases hshape with ⟨ds, w, rest, hline, hds, hda, hn, hna, hw⟩
      rw [hline]
      exact screenLineName_of_shape ds name w rest hds hda hn hna hw

/-- C6 witness. -/
theorem parseScreen_spec_case :
    parseScreenSessions (chars "x: y") =
      ((chars "x: y").splitOn '\n').filterMap
        (fun line => screenLineName (trimStr line)) ∧
    screenLineName (chars "12345.work-1 (Detached)") = some (chars "work-1") :=
  ⟨parseScreen_spec.2.1 (chars "x: y") (by decide),
   (parseScreen_spec.2.2.1 (chars "12345.work-1 (Detached)")
       (chars "work-1")).mpr
     ⟨chars "12345", ' ', chars "(Detached)", by decide, by decide, by decide,
      by decide, by decide, by decide⟩⟩

/-! ### Decimal rendering -/

theorem natToStrGo_fuel_irrel :
    ∀ f g n : Nat, n < 10 ^ f → n < 10 ^ g → 1 ≤ f → 1 ≤ g →
      natToStrGo f n = natToStrGo g n := by
  intro f
  induction f with
  | zero =>
    intro g n _ _ hf _
    omega
  | succ f ih =>
    intro g n hnf hng _ hg
    cases g with
    | zero => omega
    | succ g =>
      by_cases h10 : n < 10
      · simp [natToStrGo, h10]
      · simp only [natToStrGo, h10, ite_false, if_neg]
        have hd : n / 10 < 10 ^ f := by
          rw [Nat.div_lt_iff_lt_mul (by norm_num)]
          calc n < 10 ^ (f + 1) := hnf
          _ = 10 ^ f * 10 := by rw [pow_succ]
        have hdg : n / 10 < 10 ^ g := by
          rw [Nat.div_lt_iff_lt_mul (by norm_num)]
          calc n < 10 ^ (g + 1) := hng
          _ = 10 ^ g * 10 := by rw [pow_succ]
        have hf1 : 1 ≤ f := by
          rcases Nat.eq_zero_or_pos f with rfl | hp
          · norm_num at hnf
            omega
          · exact hp
        have hg1 : 1 ≤ g := by
          rcases Nat.eq_zero_or_pos g with rfl | hp
          · norm_num at hng
            omega
          · exact hp
        rw [ih g (n / 10) hd hdg hf1 hg1]

theorem natToStr_lt {n : Nat} (h : n < 10) : natToStr n = [digitChar n] := by
  unfold natToStr natToStrGo
  simp [h]

theorem natToStr_ge {n : Nat} (h : 10 ≤ n) :
    natToStr n = natToStr (n / 10) ++ [digitChar (n % 10)] := by
  have h1 : natToStr n = natToStrGo n (n / 10) ++ [digitChar (n % 10)] := by
    unfold natToStr
    cases n with
    | zero => omega
    | succ m =>
      simp only [natToStrGo]
      rw [if_neg (by omega)]
  rw [h1]
  have h2 : natToStrGo n (n / 10) = natToStrGo (n / 10 + 1) (n / 10) := by
    refine natToStrGo_fuel_irrel n (n / 10 + 1) (n / 10) ?_ ?_ (by omega) (by omega)
    · calc n / 10 ≤ n := Nat.div_le_self n 10
      _ < 10 ^ n := Nat.lt_pow_self (by norm_num) n
    · calc n / 10 < 10 ^ (n / 10) := Nat.lt_pow_self (by norm_num) _
      _ ≤ 10 ^ (n / 10 + 1) := Nat.pow_le_pow_right (by norm_num) (Nat.le_succ _)
  rw [h2]
  rfl

theorem digitChar_isDigit {d : Nat} (h : d < 10) : isDigitChar (digitChar d) = true := by
  interval_cases d <;> decide

theorem digitVal_digitChar {d : Nat} (h : d < 10) : digitVal (digitChar d) = d := by
  interval_cases d <;> decide

theorem natToStr_ne_nil (n : Nat) : natToStr n ≠ [] := by
  by_cases h : n < 10
  · rw [natToStr_lt h]
    simp
  · rw [natToStr_ge (by omega)]
    simp

theorem natToStr_all_digit (n : Nat) : (natToStr n).all isDigitChar = true := by
  induction n using Nat.strong_induction_on with
  | _ n ih =>
    by_cases h : n < 10
    · rw [natToStr_lt h]
      simp [digitChar_isDigit h]
    · rw [natToStr_ge (by omega)]
      simp [List.all_append, ih (n / 10) (Nat.div_lt_self (by omega) (by norm_num)),
        digitChar_isDigit (Nat.mod_lt n (by norm_num))]

theorem digitsToNat_natToStr (n : Nat) : digitsToNat (natToStr n) = n := by
  induction n using Nat.strong_induction_on with
  | _ n ih =>
    by_cases h : n < 10
    · rw [natToStr_lt h]
      simp [digitsToNat, digitVal_digitChar h]
    · rw [natToStr_ge (by omega)]
      unfold digitsToNat
      rw [List.foldl_append]
      have hdiv := ih (n / 10) (Nat.div_lt_self (by omega) (by norm_num))
      unfold digitsToNat at hdiv
      rw [hdiv]
      simp only [List.foldl_cons, List.foldl_nil,
        digitVal_digitChar (Nat.mod_lt n (by norm_num))]
      omega

/-! ### The Number-based suffix test on canonical decimals -/

theorem takeWhile_eq_self_of_all {p : Char → Bool} {s : Str}
    (h : ∀ c ∈ s, p c = true) : s.takeWhile p = s := by
  induction s with
  | nil => rfl
  | cons a t ih =>
    simp [List.takeWhile_cons, h a (List.mem_cons_self a t),
      ih fun c hc => h c (List.mem_cons_of_mem a hc)]

theorem dropWhile_eq_nil_of_all {p : Char → Bool} {s : Str}
    (h : ∀ c ∈ s, p c = true) : s.dropWhile p = [] := by
  induction s with
  | nil => rfl
  | cons a t ih =>
    simp [List.dropWhile_cons, h a (List.mem_cons_self a t),
      ih fun c hc => h c (List.mem_cons_of_mem a hc)]

theorem dropWhile_eq_self_of_none {p : Char → Bool} {s : Str}
    (h : ∀ c ∈ s, p c = false) : s.dropWhile p = s := by
  cases s with
  | nil => rfl
  | cons a t => simp [List.dropWhile_cons, h a (List.mem_cons_self a t)]

theorem trimStr_eq_self_of_no_ws {s : Str} (h : ∀ c ∈ s, isWsChar c = false) :
    trimStr s = s := by
  unfold trimStr
  rw [dropWhile_eq_self_of_none h,
    dropWhile_eq_self_of_none fun c hc => h c (List.mem_reverse.mp hc),
    List.reverse_reverse]

theorem digit_not_ws {c : Char} (h : isDigitChar c = true) : isWsChar c = false := by
  have h1 : c ≠ ' ' := fun e => by rw [e] at h; exact absurd h (by decide)
  have h2 : c ≠ '\t' := fun e => by rw [e] at h; exact absurd h (by decide)
  have h3 : c ≠ '\n' := fun e => by rw [e] at h; exact absurd h (by decide)
  have h4 : c ≠ '\r' := fun e => by rw [e] at h; exact absurd h (by decide)
  have h5 : c ≠ '\x0b' := fun e => by rw [e] at h; exact absurd h (by decide)
  have h6 : c ≠ '\x0c' := fun e => by rw [e] at h; exact absurd h (by decide)
  simp [isWsChar, h1, h2, h3, h4, h5, h6]

theorem parseRadix_digits {t : Str} (hall : ∀ c ∈ t, isDigitChar c = true) :
    parseRadix t = none := by
  match t with
  | [] => rfl
  | [c] => rfl
  | c0 :: c1 :: r =>
    have h1 : isDigitChar c1 = true := hall c1 (by simp)
    have hx1 : c1 ≠ 'x' := fun e => by rw [e] at h1; exact absurd h1 (by decide)
    have hx2 : c1 ≠ 'X' := fun e => by rw [e] at h1; exact absurd h1 (by decide)
    have ho1 : c1 ≠ 'o' := fun e => by rw [e] at h1; exact absurd h1 (by decide)
    have ho2 : c1 ≠ 'O' := fun e => by rw [e] at h1; exact absurd h1 (by decide)
    have hb1 : c1 ≠ 'b' := fun e => by rw [e] at h1; exact absurd h1 (by decide)
    have hb2 : c1 ≠ 'B' := fun e => by rw [e] at h1; exact absurd h1 (by decide)
    simp [parseRadix, hx1, hx2, ho1, ho2, hb1, hb2]

theorem parseDecLit_digits {t : Str} (hne : t ≠ [])
    (hall : ∀ c ∈ t, isDigitChar c = true) :
    parseDecLit t = some (digitsToNat t, 0) := by
  unfold parseDecLit
  rw [takeWhile_eq_self_of_all hall, dropWhile_eq_nil_of_all hall]
  simp [hne]

theorem parseSigned_digits {t : Str} (hne : t ≠ [])
    (hall : t.all isDigitChar = true) :
    parseSigned false t = .dec false (digitsToNat t) 0 := by
  have hmem : ∀ c ∈ t, isDigitChar c = true :=
    fun c hc => List.all_eq_true.mp hall c hc
  have hinf : t ≠ INFIN := fun he => by
    rw [he] at hall
    exact absurd hall (by decide)
  unfold parseSigned
  rw [if_neg hinf, parseDecLit_digits hne hmem]

theorem jsParseNumber_digits {t : Str} (hne : t ≠ [])
    (hall : t.all isDigitChar = true) :
    jsParseNumber t = .dec false (digitsToNat t) 0 := by
  have hmem : ∀ c ∈ t, isDigitChar c = true :=
    fun c hc => List.all_eq_true.mp hall c hc
  have htrim : trimStr t = t :=
    trimStr_eq_self_of_no_ws fun c hc => digit_not_ws (hmem c hc)
  cases t with
  | nil => exact absurd rfl hne
  | cons c r =>
    have hc : isDigitChar c = true := hmem c (List.mem_cons_self c r)
    have hplus : c ≠ '+' := fun e => by rw [e] at hc; exact absurd hc (by decide)
    have hminus : c ≠ '-' := fun e => by rw [e] at hc; exact absurd hc (by decide)
    simp [jsParseNumber, htrim, hplus, hminus, parseRadix_digits hmem,
      parseSigned_digits hne hall]

/-! ### Rounding canonical integers to doubles -/

theorem bitLenGo_fuel_irrel :
    ∀ f g n : Nat, n < 2 ^ f → n < 2 ^ g → bitLenGo f n = bitLenGo g n := by
  intro f
  induction f with
  | zero =>
    intro g n hf _
    have hn : n = 0 := by simpa using hf
    subst hn
    cases g with
    | zero => rfl
    | succ g => simp [bitLenGo]
  | succ f ih =>
    intro g n hf hg
    cases g with
    | zero =>
      have hn : n = 0 := by simpa using hg
      subst hn
      simp [bitLenGo]
    | succ g =>
      by_cases hz : n = 0
      · subst hz
        simp [bitLenGo]
      · simp only [bitLenGo, if_neg hz]
        have hdf : n / 2 < 2 ^ f := by
          rw [Nat.div_lt_iff_lt_mul (by norm_num)]
          calc n < 2 ^ (f + 1) := hf
          _ = 2 ^ f * 2 := by rw [pow_succ]
        have hdg : n / 2 < 2 ^ g := by
          rw [Nat.div_lt_iff_lt_mul (by norm_num)]
          calc n < 2 ^ (g + 1) := hg
          _ = 2 ^ g * 2 := by rw [pow_succ]
        rw [ih g (n / 2) hdf hdg]

theorem bitLen_succ {n : Nat} (h : 1 ≤ n) : bitLen n = bitLen (n / 2) + 1 := by
  have h1 : bitLen n = bitLenGo n (n / 2) + 1 := by
    unfold bitLen
    cases n with
    | zero => omega
    | succ m =>
      simp only [bitLenGo]
      rw [if_neg (by omega)]
  rw [h1]
  have h2 : bitLenGo n (n / 2) = bitLenGo (n / 2 + 1) (n / 2) := by
    refine bitLenGo_fuel_irrel n (n / 2 + 1) (n / 2) ?_ ?_
    · calc n / 2 ≤ n := Nat.div_le_self n 2
      _ < 2 ^ n := Nat.lt_pow_self (by norm_num) n
    · calc n / 2 < 2 ^ (n / 2) := Nat.lt_pow_self (by norm_num) _
      _ ≤ 2 ^ (n / 2 + 1) := Nat.pow_le_pow_right (by norm_num) (Nat.le_succ _)
  rw [h2]
  rfl

theorem bitLen_pos {n : Nat} (h : 1 ≤ n) : 1 ≤ bitLen n := by
  rw [bitLen_succ h]
  omega

theorem bitLen_lower : ∀ n : Nat, 1 ≤ n → 2 ^ (bitLen n - 1) ≤ n := by
  intro n
  induction n using Nat.strong_induction_on with
  | _ n ih =>
    intro h
    rcases Nat.lt_or_ge n 2 with h2 | h2
    · interval_cases n
      decide
    · rw [bitLen_succ (by omega)]
      have hd : 1 ≤ n / 2 := by omega
      have ihd := ih (n / 2) (by omega) hd
      have hp := bitLen_pos hd
      have hdbl : 2 ^ bitLen (n / 2) = 2 * 2 ^ (bitLen (n / 2) - 1) := by
        rw [← pow_succ']
        congr 1
        omega
      simp only [Nat.add_sub_cancel]
      omega

theorem fracBinade_nat {n : Nat} (h : 1 ≤ n) :
    fracBinade n 1 = (bitLen n : Int) - 1 := by
  have hp := bitLen_pos h
  have hb1 : bitLen 1 = 1 := by decide
  have ht1 : ((bitLen n : Int) - ((bitLen 1 : Nat) : Int)).toNat = bitLen n - 1 := by
    rw [hb1]
    omega
  have ht2 : (-((bitLen n : Int) - ((bitLen 1 : Nat) : Int))).toNat = 0 := by
    rw [hb1]
    omega
  simp only [fracBinade, ht1, ht2]
  rw [if_pos (by simpa using bitLen_lower n h), hb1]
  omega

set_option maxRecDepth 40000 in
theorem fracToDouble_nat_exact {n : Nat} (h1 : 1 ≤ n) (h2 : n ≤ 2 ^ 53) :
    ∃ mant : Nat, ∃ e2 : Int, fracToDouble n 1 = some (mant, e2) ∧ mant ≠ 0 ∧
      doubleToInt? mant e2 = some n := by
  by_cases hbig : n = 2 ^ 53
  · subst hbig
    exact ⟨2 ^ 52, 1, by decide, by decide, by decide⟩
  · have hlt : n < 2 ^ 53 := by omega
    have hp := bitLen_pos h1
    have hbl : bitLen n ≤ 53 := by
      by_contra hc
      push_neg at hc
      have hlow := bitLen_lower n h1
      have : (2 : Nat) ^ 53 ≤ 2 ^ (bitLen n - 1) :=
        Nat.pow_le_pow_right (by norm_num) (by omega)
      omega
    have hn0 : ¬ n = 0 := by omega
    simp only [fracToDouble, hn0, ite_false, if_false, fracBinade_nat h1]
    have hsc : max ((bitLen n : Int) - 1 - 52) (-1074) = (bitLen n : Int) - 53 := by
      omega
    rw [hsc]
    have hx1 : (-((bitLen n : Int) - 53)).toNat = 53 - bitLen n := by omega
    have hx2 : ((bitLen n : Int) - 53).toNat = 0 := by omega
    rw [hx1, hx2]
    have hone : (1 : Nat) * 2 ^ 0 = 1 := by norm_num
    rw [hone]
    have hrnd : rndHalfEven (n * 2 ^ (53 - bitLen n)) 1 =
        n * 2 ^ (53 - bitLen n) := by
      simp only [rndHalfEven]
      simp [Nat.mod_one, Nat.div_one]
    rw [hrnd]
    have hflow : n * 2 ^ (53 - bitLen n) <
        2 ^ ((1024 - ((bitLen n : Int) - 53)).toNat) := by
      have hxx : (1024 - ((bitLen n : Int) - 53)).toNat = 1077 - bitLen n := by
        omega
      rw [hxx]
      have hpos : 0 < (2 : Nat) ^ (53 - bitLen n) := Nat.pos_pow_of_pos _ (by norm_num)
      calc n * 2 ^ (53 - bitLen n) < 2 ^ 53 * 2 ^ (53 - bitLen n) :=
            (Nat.mul_lt_mul_right hpos).mpr hlt
      _ = 2 ^ (53 + (53 - bitLen n)) := by rw [pow_add]
      _ ≤ 2 ^ (1077 - bitLen n) := Nat.pow_le_pow_right (by norm_num) (by omega)
    rw [if_pos hflow]
    refine ⟨n * 2 ^ (53 - bitLen n), (bitLen n : Int) - 53, rfl, ?_, ?_⟩
    · exact Nat.pos_iff_ne_zero.mp
        (Nat.mul_pos (by omega) (Nat.pos_pow_of_pos _ (by norm_num)))
    · unfold doubleToInt?
      by_cases hL : bitLen n = 53
      · rw [if_pos (by omega : (0 : Int) ≤ (bitLen n : Int) - 53)]
        simp [hL]
      · rw [if_neg (by omega : ¬ (0 : Int) ≤ (bitLen n : Int) - 53), hx1,
          if_pos (Nat.mul_mod_left n (2 ^ (53 - bitLen n)))]
        rw [Nat.mul_div_cancel _ (Nat.pos_pow_of_pos _ (by norm_num))]

theorem usedNumber?_natToStr {n : Nat} (h1 : 1 ≤ n) (h2 : n ≤ 2 ^ 53) :
    usedNumber? (natToStr n) = some n := by
  obtain ⟨mant, e2, hme, hm0, hval⟩ := fracToDouble_nat_exact h1 h2
  have hpn := jsParseNumber_digits (natToStr_ne_nil n) (natToStr_all_digit n)
  rw [digitsToNat_natToStr] at hpn
  have hjs : jsNumber (natToStr n) = .val false mant e2 := by
    unfold jsNumber
    rw [hpn]
    unfold jsRound decForm
    simp only [Int.toNat_zero, neg_zero, pow_zero, mul_one]
    rw [hme]
  unfold usedNumber?
  rw [hjs]
  simp [hm0, hval]

/-! ### Least free suffix -/

theorem nextFreeFrom_ge :
    ∀ (fuel n : Nat) (used : List Nat), n ≤ nextFreeFrom fuel n used := by
  intro fuel
  induction fuel with
  | zero =>
    intro n used
    simp [nextFreeFrom]
  | succ f ih =>
    intro n used
    unfold nextFreeFrom
    by_cases h : n ∈ used
    · rw [if_pos h]
      calc n ≤ n + 1 := by omega
      _ ≤ _ := ih (n + 1) used
    · simp [h]

theorem nextFreeFrom_min :
    ∀ (fuel n : Nat) (used : List Nat) (m : Nat),
      n ≤ m → m < nextFreeFrom fuel n used → m ∈ used := by
  intro fuel
  induction fuel with
  | zero =>
    intro n used m h1 h2
    simp [nextFreeFrom] at h2
    omega
  | succ f ih =>
    intro n used m h1 h2
    unfold nextFreeFrom at h2
    by_cases h : n ∈ used
    · rw [if_pos h] at h2
      rcases Nat.eq_or_lt_of_le h1 with rfl | hlt
      · exact h
      · exact ih (n + 1) used m hlt h2
    · rw [if_neg h] at h2
      omega

theorem length_filter_mono_ge (t : List Nat) (n : Nat) :
    (t.filter fun k => decide (n + 1 ≤ k)).length ≤
      (t.filter fun k => decide (n ≤ k)).length := by
  induction t with
  | nil => simp
  | cons a s ih =>
    by_cases h1 : n + 1 ≤ a
    · have h2 : n ≤ a := by omega
      simp [List.filter_cons, h1, h2]
      omega
    · by_cases h2 : n ≤ a
      · simp [List.filter_cons, h1, h2]
        omega
      · simp [List.filter_cons, h1, h2]
        exact ih

theorem length_filter_ge_succ (used : List Nat) (n : Nat) (h : n ∈ used) :
    (used.filter fun k => decide (n + 1 ≤ k)).length <
      (used.filter fun k => decide (n ≤ k)).length := by
  induction used with
  | nil => simp at h
  | cons a t ih =>
    by_cases ha : n = a
    · subst ha
      have hmono := length_filter_mono_ge t n
      have h1 : ¬ (n + 1 ≤ n) := by omega
      have h2 : n ≤ n := le_refl n
      simp [List.filter_cons, h1, h2]
      omega
    · have hmem : n ∈ t := by
        rcases List.mem_cons.mp h with h' | h'
        · exact absurd h' ha
        · exact h'
      have hih := ih hmem
      by_cases h1 : n + 1 ≤ a
      · have h2 : n ≤ a := by omega
        simp [List.filter_cons, h1, h2]
        omega
      · have h2 : ¬ (n ≤ a) := by omega
        simp [List.filter_cons, h1, h2]
        omega

theorem nextFreeFrom_not_mem :
    ∀ (fuel n : Nat) (used : List Nat),
      (used.filter fun k => decide (n ≤ k)).length < fuel →
      nextFreeFrom fuel n used ∉ used := by
  intro fuel
  induction fuel with
  | zero =>
    intro n used h
    omega
  | succ f ih =>
    intro n used h
    unfold nextFreeFrom
    by_cases hm : n ∈ used
    · rw [if_pos hm]
      refine ih (n + 1) used ?_
      have := length_filter_ge_succ used n hm
      omega
    · rw [if_neg hm]
      exact hm

theorem chosenNext_pos (pfx : Str) (S : List Str) : 0 < chosenNext pfx S :=
  nextFreeFrom_ge _ 1 _

theorem chosenNext_not_used (pfx : Str) (S : List Str) :
    chosenNext pfx S ∉ usedOf pfx S := by
  unfold chosenNext
  refine nextFreeFrom_not_mem _ 1 _ ?_
  have := List.length_filter_le (fun k => decide (1 ≤ k)) (usedOf pfx S)
  omega

theorem chosenNext_min (pfx : Str) (S : List Str) :
    ∀ m, 0 < m → m < chosenNext pfx S → m ∈ usedOf pfx S :=
  fun m h1 h2 => nextFreeFrom_min _ 1 _ m h1 h2

theorem isPrefixOf_append_self (t r : Str) : t.isPrefixOf (t ++ r) = true := by
  induction t with
  | nil => simp [List.isPrefixOf]
  | cons a as ih => simp [List.isPrefixOf, ih]

theorem nextFreeFrom_le :
    ∀ (fuel n : Nat) (used : List Nat), nextFreeFrom fuel n used ≤ n + fuel := by
  intro fuel
  induction fuel with
  | zero =>
    intro n used
    simp [nextFreeFrom]
  | succ f ih =>
    intro n used
    unfold nextFreeFrom
    by_cases h : n ∈ used
    · rw [if_pos h]
      have := ih (n + 1) used
      omega
    · rw [if_neg h]
      omega

theorem chosenNext_le (pfx : Str) (S : List Str) :
    chosenNext pfx S ≤ S.length + 2 := by
  unfold chosenNext
  have hf := nextFreeFrom_le ((usedOf pfx S).length + 1) 1 (usedOf pfx S)
  have hlen : (usedOf pfx S).length ≤ S.length := by
    unfold usedOf usedNumbers
    exact List.length_filterMap_le _ _
  omega

theorem mem_usedNumbers_of (token : Str) (S : List Str) (k : Nat) (x : Str)
    (hx : x ∈ S) (hpre : token.isPrefixOf x = true)
    (hused : usedNumber? (x.drop token.length) = some k) :
    k ∈ usedNumbers token S := by
  unfold usedNumbers
  rw [List.mem_filterMap]
  refine ⟨x, hx, ?_⟩
  simp [hpre, hused]

/-- C1 (amended): whenever the session set has fewer than about `2 ^ 53`
entries (so JavaScript number arithmetic on the counter is exact) and the
sanitized prefix together with the chosen numeric suffix fits in the
24-character bound (so the prefix is not truncated), `getNextSessionName`
returns the dashed numbered name, that name is absent from the reported
session set, and the chosen suffix is the least positive integer that no
existing name marks used, where a name marks `k` used when it starts with
the prefix token and `Number` of its remainder is the positive integer
double `k` — so `01`, `1e0`, `0x10` or `1.0` all mark 1 or 16 used.
Without these provisos the claim fails: truncation can reproduce an
existing name, and a remainder such as `01` marks 1 used without the name
`...-1` being present. -/
theorem getNextSessionName_fresh_min (pfx : Str) (S : List Str)
    (hS : S.length + 2 ≤ 2 ^ 53)
    (h : (safePfxOf pfx).length + 1 + (natToStr (chosenNext pfx S)).length ≤ 24) :
    getNextSessionName pfx S = safePfxOf pfx ++ '-' :: natToStr (chosenNext pfx S) ∧
    getNextSessionName pfx S ∉ S ∧
    0 < chosenNext pfx S ∧ chosenNext pfx S ∉ usedOf pfx S ∧
    ∀ m, 0 < m → m < chosenNext pfx S → m ∈ usedOf pfx S := by
  have heq : getNextSessionName pfx S =
      safePfxOf pfx ++ '-' :: natToStr (chosenNext pfx S) := by
    unfold getNextSessionName buildNumberedSessionName buildNumberedSessionNameStr
    simp only []
    rw [orTerminal_safePfx]
    congr 1
    apply List.take_of_length_le
    simp only [SESSION_NAME_MAX]
    omega
  refine ⟨heq, ?_, chosenNext_pos pfx S, chosenNext_not_used pfx S,
    chosenNext_min pfx S⟩
  intro hmem
  rw [heq] at hmem
  apply chosenNext_not_used pfx S
  have hsplit : safePfxOf pfx ++ '-' :: natToStr (chosenNext pfx S) =
      (safePfxOf pfx ++ ['-']) ++ natToStr (chosenNext pfx S) := by
    simp
  rw [hsplit] at hmem
  refine mem_usedNumbers_of (safePfxOf pfx ++ ['-']) S (chosenNext pfx S) _ hmem
    ?_ ?_
  · exact isPrefixOf_append_self _ _
  · rw [List.drop_left]
    exact usedNumber?_natToStr (chosenNext_pos pfx S)
      (le_trans (chosenNext_le pfx S) hS)

set_option maxRecDepth 40000 in
/-- C1 witness. -/
theorem getNextSessionName_fresh_min_case :
    getNextSessionName (chars "codex") [chars "codex-1", chars "codex-2"] ∉
      [chars "codex-1", chars "codex-2"] :=
  (getNextSessionName_fresh_min (chars "codex")
    [chars "codex-1", chars "codex-2"] (by decide) (by decide)).2.1

set_option maxRecDepth 40000 in
/-- Spot checks of the `Number`-based suffix test: exponent, hex, fraction,
sign, whitespace and leading-zero forms are marked used exactly as
JavaScript marks them, and an existing `terminal-1e0` makes the code skip
suffix 1. -/
theorem usedNumber_js_forms :
    usedNumber? (chars "1e0") = some 1 ∧
    usedNumber? (chars "0x10") = some 16 ∧
    usedNumber? (chars "1.0") = some 1 ∧
    usedNumber? (chars " 1") = some 1 ∧
    usedNumber? (chars "01") = some 1 ∧
    usedNumber? (chars "1.5") = none ∧
    usedNumber? (chars "-1") = none ∧
    usedNumber? (chars "x") = none ∧
    usedNumber? (chars "Infinity") = none ∧
    getNextSessionName (chars "terminal") [chars "terminal-1e0"] =
      chars "terminal-2" := by
  decide

set_option maxRecDepth 40000 in
/-- C1 counterexample: with a 23-character prefix the numbered name is
built from the truncated 22-character prefix and collides with an existing
session; and an existing remainder `01` makes the code skip suffix 1 even
though no existing name equals the prefix dash 1. -/
theorem getNextSessionName_collision_case :
    (getNextSessionName (chars "aaaaaaaaaaaaaaaaaaaaaaa")
        [chars "aaaaaaaaaaaaaaaaaaaaaa-1"] ∈ [chars "aaaaaaaaaaaaaaaaaaaaaa-1"]) ∧
    getNextSessionName (chars "terminal") [chars "terminal-01"] =
      chars "terminal-2" ∧
    chars "terminal-1" ∉ [chars "terminal-01"] := by
  exact ⟨by decide, by decide, by decide⟩

end TermKernel
